import Mathlib

/-!
Verification of the `to_video` repository: a shallow embedding of the
sliding-window partitioner (`BigImg::divide`), the builder validation
(`BigImgBuilder::build`), the rasterizer entry guards
(`draw_filled_rect_mut`, `draw_polygon_with_mut`), the auto-fit text
layout (`draw_text_center_mut`), the frame compositor guards
(`BigImg::combain_chunk`, `Chunk::draw_data`) and the cleanup step
(`BigImg::combain`), together with theorems settling the specification
claims about them.
-/

namespace ToVideo

/-! ## Window partitioner: `BigImg::divide` (src/swiping_img/mod.rs:188-194)

Rust source:
```
fn divide(&self) -> Vec<&[Chunk]> {
    let len = self.chunks.len();
    (0..len - self.overlap as usize)
        .step_by((self.step - self.overlap) as usize)
        .map(|i| &self.chunks[i..(i + self.step as usize).min(len)])
        .collect()
}
```
`(0..e).step_by(d)` (for `d > 0`) yields the multiples of `d` below `e`;
there are exactly `(e + d - 1) / d` of them.  `&chunks[i..j]` is the
contiguous sub-slice `(chunks.drop i).take (j - i)`.  Subtractions are on
unsigned machine integers; Lean's truncated `Nat` subtraction agrees with
Rust wherever Rust does not panic (the claims' preconditions rule the
panicking cases out). -/

/-- The list of start indices produced by `(0..e).step_by(d)`:
multiples of `d` strictly below `e` (requires `d > 0`, as in Rust where
`step_by(0)` panics). -/
def stepBy (e d : ℕ) : List ℕ :=
  (List.range ((e + d - 1) / d)).map (fun k => k * d)

/-- Embedding of `BigImg::divide`, generic in the element type of the
chunk slice. -/
def divide {α : Type} (chunks : List α) (step overlap : ℕ) : List (List α) :=
  let len := chunks.length
  (stepBy (len - overlap) (step - overlap)).map
    (fun i => (chunks.drop i).take (min (i + step) len - i))

/-- Number of windows `divide` produces. -/
def numWindows (len step overlap : ℕ) : ℕ :=
  (len - overlap + (step - overlap) - 1) / (step - overlap)

theorem stepBy_length (e d : ℕ) : (stepBy e d).length = (e + d - 1) / d := by
  simp [stepBy]

theorem divide_length {α : Type} (chunks : List α) (step overlap : ℕ) :
    (divide chunks step overlap).length = numWindows chunks.length step overlap := by
  simp [divide, stepBy, numWindows]

theorem stepBy_get (e d k : ℕ) (hk : k < (stepBy e d).length) :
    (stepBy e d).get ⟨k, hk⟩ = k * d := by
  simp [stepBy]

/-- Membership in the ceiling-division count is exactly `k * d < e`. -/
theorem lt_ceilDiv_iff (e d k : ℕ) (hd : 0 < d) :
    k < (e + d - 1) / d ↔ k * d < e := by
  rw [show k < (e + d - 1) / d ↔ k + 1 ≤ (e + d - 1) / d from Iff.rfl,
    Nat.le_div_iff_mul_le hd, add_mul, one_mul]
  omega

theorem divide_get {α : Type} (chunks : List α) (step overlap k : ℕ)
    (hk : k < (divide chunks step overlap).length) :
    (divide chunks step overlap).get ⟨k, hk⟩ =
      (chunks.drop (k * (step - overlap))).take
        (min (k * (step - overlap) + step) chunks.length - k * (step - overlap)) := by
  simp [divide, stepBy]

theorem numWindows_lt_iff (len step overlap k : ℕ) (hso : overlap < step) :
    k < numWindows len step overlap ↔ k * (step - overlap) < len - overlap :=
  lt_ceilDiv_iff _ _ _ (by omega)

theorem numWindows_pos (len step overlap : ℕ) (hso : overlap < step)
    (hN : overlap < len) : 0 < numWindows len step overlap := by
  have h := (numWindows_lt_iff len step overlap 0 hso).mpr (by omega)
  omega

/-- Every window except possibly the last is untruncated: its slice bound
`i + step` stays within the sequence. -/
theorem window_full (len step overlap k : ℕ) (hso : overlap < step)
    (hk : k + 1 < numWindows len step overlap) :
    k * (step - overlap) + step ≤ len := by
  have h := (numWindows_lt_iff len step overlap (k + 1) hso).mp hk
  have e : (k + 1) * (step - overlap) = k * (step - overlap) + (step - overlap) :=
    Nat.succ_mul ..
  omega

/-- The last window reaches the end of the sequence. -/
theorem window_last (len step overlap k : ℕ) (hso : overlap < step)
    (hN : overlap < len) (hlast : ¬ k + 1 < numWindows len step overlap) :
    len ≤ k * (step - overlap) + step := by
  have h := mt (numWindows_lt_iff len step overlap (k + 1) hso).mpr hlast
  have e : (k + 1) * (step - overlap) = k * (step - overlap) + (step - overlap) :=
    Nat.succ_mul ..
  omega

theorem divide_get_length {α : Type} (chunks : List α) (step overlap k : ℕ)
    (hk : k < (divide chunks step overlap).length) :
    ((divide chunks step overlap).get ⟨k, hk⟩).length =
      min (k * (step - overlap) + step) chunks.length - k * (step - overlap) := by
  rw [divide_get, List.length_take, List.length_drop]
  omega

/-- Every window keeps at least `overlap + 1` elements. -/
theorem window_length_ge {α : Type} (chunks : List α) (step overlap k : ℕ)
    (hso : overlap < step) (hN : overlap < chunks.length)
    (hk : k < (divide chunks step overlap).length) :
    overlap + 1 ≤ ((divide chunks step overlap).get ⟨k, hk⟩).length := by
  have hk' : k * (step - overlap) < chunks.length - overlap :=
    (numWindows_lt_iff chunks.length step overlap k hso).mp
      (divide_length chunks step overlap ▸ hk)
  rw [divide_get_length]
  omega

theorem divide_map_length {α : Type} (chunks : List α) (step overlap : ℕ) :
    (divide chunks step overlap).map List.length =
      (List.range (numWindows chunks.length step overlap)).map
        (fun k => min (k * (step - overlap) + step) chunks.length
          - k * (step - overlap)) := by
  unfold divide stepBy numWindows
  rw [List.map_map, List.map_map]
  refine List.map_congr_left fun a _ => ?_
  simp only [Function.comp_apply, List.length_take, List.length_drop]
  omega

/-- The windows' lengths sum to `N + (W - 1) * overlap`: every index is
covered, and the only duplication is the `overlap` shared at each of the
`W - 1` window boundaries. -/
theorem divide_sum_length {α : Type} (chunks : List α) (step overlap : ℕ)
    (hso : overlap < step) (hN : overlap < chunks.length) :
    ((divide chunks step overlap).map List.length).sum =
      chunks.length + ((divide chunks step overlap).length - 1) * overlap := by
  rw [divide_map_length, divide_length]
  have hn : 0 < numWindows chunks.length step overlap :=
    numWindows_pos _ _ _ hso hN
  obtain ⟨m, hm⟩ : ∃ m, numWindows chunks.length step overlap = m + 1 :=
    ⟨_, (Nat.succ_pred_eq_of_pos hn).symm⟩
  rw [hm, Nat.add_sub_cancel, List.range_succ, List.map_append, List.sum_append]
  have hfull : ∀ k ∈ List.range m,
      min (k * (step - overlap) + step) chunks.length - k * (step - overlap)
        = step := by
    intro k hkm
    have hk : k + 1 < numWindows chunks.length step overlap := by
      rw [hm]
      exact Nat.succ_lt_succ (List.mem_range.mp hkm)
    have := window_full chunks.length step overlap k hso hk
    omega
  have hconst : (List.range m).map
      (fun k => min (k * (step - overlap) + step) chunks.length
        - k * (step - overlap)) = (List.range m).map (fun _ => step) :=
    List.map_congr_left hfull
  rw [hconst]
  have hsum : ((List.range m).map (fun _ => step)).sum = m * step := by
    simp [mul_comm]
  rw [hsum]
  have hmlt : m * (step - overlap) < chunks.length - overlap :=
    (numWindows_lt_iff chunks.length step overlap m hso).mp (by omega)
  have hlastw : chunks.length ≤ m * (step - overlap) + step :=
    window_last chunks.length step overlap m hso hN (by omega)
  have hsplit : m * (step - overlap) + m * overlap = m * step := by
    rw [← Nat.mul_add]
    congr 1
    omega
  simp only [List.map_cons, List.map_nil, List.sum_cons, List.sum_nil]
  omega

/-- Consecutive windows: the earlier one has length exactly `step`, and its
last `overlap` elements are the next window's first `overlap` elements. -/
theorem divide_consecutive {α : Type} (chunks : List α) (step overlap k : ℕ)
    (hso : overlap < step) (hN : overlap < chunks.length)
    (hk : k + 1 < (divide chunks step overlap).length) :
    ((divide chunks step overlap).get ⟨k, by omega⟩).length = step ∧
    ((divide chunks step overlap).get ⟨k, by omega⟩).drop (step - overlap) =
      ((divide chunks step overlap).get ⟨k + 1, hk⟩).take overlap := by
  have hkn : k + 1 < numWindows chunks.length step overlap :=
    divide_length chunks step overlap ▸ hk
  have hfull := window_full chunks.length step overlap k hso hkn
  constructor
  · rw [divide_get_length]
    omega
  · rw [divide_get, divide_get]
    have e1 : min (k * (step - overlap) + step) chunks.length
        - k * (step - overlap) = step := by omega
    rw [e1, List.drop_take, List.drop_drop]
    have e2 : step - (step - overlap) = overlap := by omega
    have e3 : k * (step - overlap) + (step - overlap)
        = (k + 1) * (step - overlap) := by
      rw [Nat.add_mul, Nat.one_mul]
    rw [e2, e3, List.take_take]
    have h1 : (k + 1) * (step - overlap) < chunks.length - overlap :=
      (numWindows_lt_iff chunks.length step overlap (k + 1) hso).mp hkn
    congr 1
    omega

/-- Every index of the sequence lies in at least one window. -/
theorem divide_covers {α : Type} (chunks : List α) (step overlap j : ℕ)
    (hso : overlap < step) (hN : overlap < chunks.length)
    (hj : j < chunks.length) :
    ∃ k, ∃ hk : k < (divide chunks step overlap).length,
      k * (step - overlap) ≤ j ∧
      j < k * (step - overlap)
        + ((divide chunks step overlap).get ⟨k, hk⟩).length := by
  have hlen := divide_length chunks step overlap
  by_cases hcase : j < chunks.length - overlap
  · have hd : 0 < step - overlap := by omega
    have hdm := Nat.div_add_mod j (step - overlap)
    have hmod : j % (step - overlap) < step - overlap := Nat.mod_lt _ hd
    have hcm : (step - overlap) * (j / (step - overlap))
        = j / (step - overlap) * (step - overlap) := Nat.mul_comm ..
    have hqlt : j / (step - overlap) * (step - overlap)
        < chunks.length - overlap := by omega
    have hkn : j / (step - overlap) < numWindows chunks.length step overlap :=
      (numWindows_lt_iff chunks.length step overlap _ hso).mpr hqlt
    refine ⟨j / (step - overlap), by omega, by omega, ?_⟩
    rw [divide_get_length]
    omega
  · have hn : 0 < numWindows chunks.length step overlap :=
      numWindows_pos _ _ _ hso hN
    have hkn : numWindows chunks.length step overlap - 1
        < numWindows chunks.length step overlap := by omega
    have hstart : (numWindows chunks.length step overlap - 1) * (step - overlap)
        < chunks.length - overlap :=
      (numWindows_lt_iff chunks.length step overlap _ hso).mp hkn
    have hlast := window_last chunks.length step overlap
      (numWindows chunks.length step overlap - 1) hso hN (by omega)
    refine ⟨numWindows chunks.length step overlap - 1, by omega, by omega, ?_⟩
    rw [divide_get_length]
    omega

/-- C1: for `step > overlap ≥ 0` and `N > overlap`, the windows produced by
`BigImg::divide` are contiguous sub-slices of the original sequence in
original order (window `k` is the slice of the original sequence starting at
index `k * (step - overlap)`), every pair of consecutive windows shares
exactly `overlap` elements at the boundary, every one of the `N` indices is
covered by some window and the windows' lengths sum to
`N + (W - 1) * overlap` (each index once, plus the `overlap` duplication at
each of the `W - 1` boundaries), and every window - in particular the
last - has length at most `step`. -/
theorem divide_is_overlapping_partition {α : Type} (chunks : List α)
    (step overlap : ℕ) (hso : overlap < step) (hN : overlap < chunks.length) :
    (∀ k (hk : k < (divide chunks step overlap).length),
      (divide chunks step overlap).get ⟨k, hk⟩ =
        (chunks.drop (k * (step - overlap))).take
          (min (k * (step - overlap) + step) chunks.length
            - k * (step - overlap)) ∧
      (divide chunks step overlap).get ⟨k, hk⟩ <:+: chunks ∧
      ((divide chunks step overlap).get ⟨k, hk⟩).length ≤ step) ∧
    (∀ k (hk : k + 1 < (divide chunks step overlap).length),
      ((divide chunks step overlap).get ⟨k, by omega⟩).length = step ∧
      ((divide chunks step overlap).get ⟨k, by omega⟩).drop (step - overlap) =
        ((divide chunks step overlap).get ⟨k + 1, hk⟩).take overlap ∧
      (((divide chunks step overlap).get ⟨k, by omega⟩).drop
        (step - overlap)).length = overlap) ∧
    (∀ j, j < chunks.length →
      ∃ k, ∃ hk : k < (divide chunks step overlap).length,
        k * (step - overlap) ≤ j ∧
        j < k * (step - overlap)
          + ((divide chunks step overlap).get ⟨k, hk⟩).length) ∧
    ((divide chunks step overlap).map List.length).sum =
      chunks.length + ((divide chunks step overlap).length - 1) * overlap := by
  refine ⟨?_, ?_, fun j hj => divide_covers chunks step overlap j hso hN hj,
    divide_sum_length chunks step overlap hso hN⟩
  · intro k hk
    refine ⟨divide_get chunks step overlap k hk, ?_, ?_⟩
    · rw [divide_get]
      exact (List.take_prefix _ _).isInfix.trans
        (List.drop_suffix _ _).isInfix
    · rw [divide_get_length]
      omega
  · intro k hk
    have h := divide_consecutive chunks step overlap k hso hN hk
    refine ⟨h.1, h.2, ?_⟩
    rw [List.length_drop, h.1]
    omega

theorem divide_is_overlapping_partition_witness :
    1 < 3 ∧ 1 < (List.range 10).length ∧
      ((divide (List.range 10) 3 1).map List.length).sum =
        (List.range 10).length + ((divide (List.range 10) 3 1).length - 1) * 1 :=
  ⟨by decide, by decide,
    (divide_is_overlapping_partition (List.range 10) 3 1 (by decide)
      (by decide)).2.2.2⟩

/-- C2 counterexample: with a sequence of 10 tiles, `step = 3` and
`overlap = 1`, `BigImg::divide` yields five windows of lengths
`[3,3,3,3,2]`, not the four windows of lengths `[3,3,3,2]` the claim
states. -/
theorem divide_ten_step3_overlap1_counterexample :
    (divide (List.range 10) 3 1).length = 5 ∧
    (divide (List.range 10) 3 1).map List.length = [3, 3, 3, 3, 2] ∧
    ¬((divide (List.range 10) 3 1).length = 4 ∧
      (divide (List.range 10) 3 1).map List.length = [3, 3, 3, 2]) := by
  decide

/-- C2 amended: with a sequence of 10 tiles, `step = 3` and `overlap = 1`,
`BigImg::divide` yields exactly five windows, of lengths `[3,3,3,3,2]`,
starting at indices `[0,2,4,6,8]`. -/
theorem divide_ten_step3_overlap1 :
    divide (List.range 10) 3 1 =
      [[0, 1, 2], [2, 3, 4], [4, 5, 6], [6, 7, 8], [8, 9]] ∧
    stepBy (10 - 1) (3 - 1) = [0, 2, 4, 6, 8] := by
  decide

/-- Embedding of the arithmetic prologue of `BigImg::generate_mid_video`
(src/swiping_img/mod.rs:275-278): `let adjust_len = len - self.overlap;`,
an unsigned (`u32`) subtraction that panics on underflow in Rust. -/
def adjust_len (len overlap : ℕ) : ℕ := len - overlap

/-- C10: when the chunk sequence is longer than `overlap` and
`step > overlap`, every window of `BigImg::divide` has length at least
`overlap + 1` (hence is non-empty), so `generate_mid_video`'s unsigned
subtraction `len - overlap` on a window's length never underflows. -/
theorem divide_window_length_no_underflow {α : Type} (chunks : List α)
    (step overlap : ℕ) (hso : overlap < step) (hN : overlap < chunks.length) :
    ∀ k (hk : k < (divide chunks step overlap).length),
      overlap + 1 ≤ ((divide chunks step overlap).get ⟨k, hk⟩).length ∧
      1 ≤ adjust_len ((divide chunks step overlap).get ⟨k, hk⟩).length
        overlap := by
  intro k hk
  have h := window_length_ge chunks step overlap k hso hN hk
  refine ⟨h, ?_⟩
  unfold adjust_len
  omega

theorem divide_window_length_no_underflow_witness :
    1 < 3 ∧ 1 < (List.range 10).length ∧
      1 ≤ adjust_len
        ((divide (List.range 10) 3 1).get ⟨0, by decide⟩).length 1 :=
  ⟨by decide, by decide,
    (divide_window_length_no_underflow (List.range 10) 3 1 (by decide)
      (by decide) 0 (by decide)).2⟩

/-! ## Builder validation: `BigImgBuilder::build` (src/swiping_img/mod.rs:476-530)

The builder's two effectful checks (`work_dir.exists()` and loading the
default font file) are modelled as boolean fields `workDirExists` and
`fontOk`; everything else is the pure validation and field computation of
`build`.  `chunks` enters only through its length. -/

/-- The builder state at the moment `build` is called (`BigImgBuilder`
fields; defaults from `BigImgBuilder::new`). -/
structure BigImgBuilder where
  workDirExists : Bool
  numChunks : ℕ
  screenW : ℕ
  screenH : ℕ
  step : ℕ
  widthChunk : ℕ
  picH : ℕ
  textUpH : ℕ
  fontOk : Bool
  deriving DecidableEq, Repr

/-- The fields of the built `BigImg` that the claims are about. -/
structure BigImgCfg where
  numChunks : ℕ
  screenW : ℕ
  screenH : ℕ
  step : ℕ
  widthChunk : ℕ
  overlap : ℕ
  picH : ℕ
  textUpH : ℕ
  textDownH : ℕ
  deriving DecidableEq, Repr

/-- Embedding of `BigImgBuilder::build`.  Checks in source order:
`work_dir` existence, non-empty `chunks`, `pic_h <= screen.1`,
`screen.0 % width_chunk == 0`, then font availability (the font is loaded
inside the struct literal); on success `step` is clamped to
`min step (u32::try_from(len).unwrap_or(0))` and
`overlap = screen.0 / width_chunk`.  `text_down_h = screen.1 - pic_h -
text_up_h` is a `u32` subtraction: Lean's truncated subtraction stands in
for it (Rust would panic on underflow there, a case no claim touches). -/
def build (b : BigImgBuilder) : Except String BigImgCfg :=
  if b.workDirExists = false then .error "work_dir is not exist"
  else if b.numChunks = 0 then .error "chunks data is empty"
  else if b.screenH < b.picH then .error "pic_h > height_screen"
  else if b.screenW % b.widthChunk ≠ 0 then
    .error "width_screen % width_chunk != 0"
  else if b.fontOk = false then .error "invalid font"
  else .ok
    { numChunks := b.numChunks
      screenW := b.screenW
      screenH := b.screenH
      step := min b.step (if b.numChunks < 2 ^ 32 then b.numChunks else 0)
      widthChunk := b.widthChunk
      overlap := b.screenW / b.widthChunk
      picH := b.picH
      textUpH := b.textUpH
      textDownH := b.screenH - b.picH - b.textUpH }

/-- `BigImgBuilder::new work_dir chunks` with all defaults, given that the
working directory exists, the default font loads, and `chunks` has the
given length (src/swiping_img/mod.rs:441-460). -/
def defaultBuilder (numChunks : ℕ) : BigImgBuilder :=
  { workDirExists := true
    numChunks := numChunks
    screenW := 1920
    screenH := 1080
    step := 40
    widthChunk := 480
    picH := 520
    textUpH := 214
    fontOk := true }

/-- C3 counterexample: a builder over 2 chunks with the default screen
`1920x1080` and `width_chunk = 480` violates the partitioner precondition
(`N = 2` is not greater than `overlap = 1920 / 480 = 4`, and the clamped
`step = min 40 2 = 2` is not greater than `overlap` either), yet
`BigImgBuilder::build` accepts it instead of rejecting it with a
configuration error. -/
theorem build_accepts_precondition_violation_counterexample :
    build (defaultBuilder 2) = Except.ok
      { numChunks := 2, screenW := 1920, screenH := 1080, step := 2,
        widthChunk := 480, overlap := 4, picH := 520, textUpH := 214,
        textDownH := 346 } ∧
    (build (defaultBuilder 2)).isOk = true ∧ (2 : ℕ) ≤ 4 :=
  ⟨rfl, rfl, by omega⟩

/-- C3 amended: `BigImgBuilder::build` rejects a missing working
directory, an empty chunk slice, `pic_h` exceeding the screen height, a
screen width that is not a multiple of `width_chunk`, and a font that
fails to load - but it performs no check relating the chunk count, `step`
and the derived `overlap`, so a configuration violating
`step > overlap` or `N > overlap` is accepted at construction time and
surfaces only later, inside `divide`/`run`. -/
theorem build_validates_only_static_checks :
    ∀ (b : BigImgBuilder) (cfg : BigImgCfg), build b = .ok cfg →
      b.workDirExists = true ∧ b.numChunks ≠ 0 ∧ b.picH ≤ b.screenH ∧
      b.screenW % b.widthChunk = 0 ∧ b.fontOk = true ∧
      cfg.overlap = b.screenW / b.widthChunk ∧
      cfg.numChunks = b.numChunks := by
  intro b cfg h
  unfold build at h
  split_ifs at h with h1 h2 h3 h4 h5 h6
  all_goals cases h
  all_goals exact ⟨by simpa using h1, h2, by omega, not_not.mp h4,
    by simpa using h5, rfl, rfl⟩

theorem build_validates_only_static_checks_witness :
    (defaultBuilder 50).workDirExists = true :=
  (build_validates_only_static_checks (defaultBuilder 50)
    { numChunks := 50, screenW := 1920, screenH := 1080, step := 40,
      widthChunk := 480, overlap := 4, picH := 520, textUpH := 214,
      textDownH := 346 } rfl).1

/-- C4: `build` errors whenever `pic_h` exceeds the screen height or the
screen width is not an exact multiple of `width_chunk`; on success it sets
`overlap = screen_width / width_chunk`; concretely, for screen `1920x1080`
with `width_chunk = 480` it succeeds with `overlap = 4`, and with
`width_chunk = 500` it fails validation. -/
theorem build_dimension_validation :
    (∀ b : BigImgBuilder,
      b.screenH < b.picH ∨ b.screenW % b.widthChunk ≠ 0 →
        (build b).isOk = false) ∧
    (∀ (b : BigImgBuilder) (cfg : BigImgCfg), build b = .ok cfg →
      cfg.overlap = b.screenW / b.widthChunk) ∧
    build (defaultBuilder 10) = Except.ok
      { numChunks := 10, screenW := 1920, screenH := 1080, step := 10,
        widthChunk := 480, overlap := 4, picH := 520, textUpH := 214,
        textDownH := 346 } ∧
    (build { defaultBuilder 10 with widthChunk := 500 }).isOk = false := by
  refine ⟨?_, ?_, rfl, rfl⟩
  · intro b hb
    unfold build
    split_ifs with h1 h2 h3 h4 h5 h6 <;> try rfl
    all_goals exact (hb.elim h3 fun hb' => hb' (not_not.mp h4)).elim
  · intro b cfg h
    unfold build at h
    split_ifs at h with h1 h2 h3 h4 h5 h6
    all_goals cases h
    all_goals rfl

/-! ## Rasterizer: `draw_filled_rect_mut`
(src/swiping_img/imageproc/drawing/draw_mut.rs:477-488)

`draw_filled_rect_mut` intersects the rect with the canvas bounds and
writes every pixel of the intersection.  The `Rect` type it uses comes
from the vendored `imageproc` `rect` module, which is absent from `src/`
(its `mod rect;` line is commented out), so `Rect` and `Rect::intersect`
are modelled from the spec below. -/

/-- Modelled from the spec: the `Rect` data type of the missing `rect`
module - "origin (signed integer x,y) + unsigned width/height; derived
accessors `left/top/right/bottom` where `right = left+width`,
`bottom = top+height` (bottom/right are exclusive bounds)". -/
structure Rect where
  left : ℤ
  top : ℤ
  width : ℕ
  height : ℕ
  deriving DecidableEq, Repr

def Rect.right (r : Rect) : ℤ := r.left + r.width

def Rect.bottom (r : Rect) : ℤ := r.top + r.height

/-- Modelled from the spec: `Rect::at(x, y).of_size(w, h)`. -/
def Rect.atSize (x y : ℤ) (w h : ℕ) : Rect := ⟨x, y, w, h⟩

/-- Modelled from the spec: `Rect::intersect` - the intersection of two
half-open boxes, `none` when it is empty (the spec's `filled_rect`
"intersect `rect` with canvas bounds first; write every pixel in the
intersection"). -/
def Rect.intersect (r s : Rect) : Option Rect :=
  let left := max r.left s.left
  let top := max r.top s.top
  let right := min r.right s.right
  let bottom := min r.bottom s.bottom
  if right ≤ left ∨ bottom ≤ top then none
  else some ⟨left, top, (right - left).toNat, (bottom - top).toNat⟩

/-- Embedding of `draw_filled_rect_mut` on a `width x height` canvas: the
list of `(x, y)` coordinates passed to `self.draw_pixel`, in loop order
(`dy` outer, `dx` inner, coordinates `intersection.left() as u32 + dx`,
`intersection.top() as u32 + dy`; the `as u32` casts are `Int.toNat`). -/
def draw_filled_rect_mut_pixels (width height : ℕ) (rect : Rect) :
    List (ℕ × ℕ) :=
  match (Rect.atSize 0 0 width height).intersect rect with
  | none => []
  | some inter =>
    (List.range inter.height).flatMap fun dy =>
      (List.range inter.width).map fun dx =>
        (inter.left.toNat + dx, inter.top.toNat + dy)

/-- C5: for every input rect (entirely outside, partially outside, or of
zero area) and every canvas, `draw_filled_rect_mut` writes pixels only at
coordinates inside `[0,width) x [0,height)`; every emitted coordinate is
an exact natural number below the canvas dimension, so no write panics or
wraps. -/
theorem draw_filled_rect_mut_in_bounds (width height : ℕ) (rect : Rect) :
    ∀ p, p ∈ draw_filled_rect_mut_pixels width height rect →
      p.1 < width ∧ p.2 < height := by
  intro p hp
  unfold draw_filled_rect_mut_pixels at hp
  split at hp
  · simp at hp
  · rename_i inter heq
    unfold Rect.intersect Rect.atSize Rect.right Rect.bottom at heq
    simp only [List.mem_flatMap, List.mem_map, List.mem_range] at hp
    obtain ⟨dy, hdy, dx, hdx, rfl⟩ := hp
    dsimp only at heq
    split at heq
    · exact Option.noConfusion heq
    · rename_i hcond
      cases heq
      simp only [not_or, not_le] at hcond
      dsimp only at hdy hdx ⊢
      constructor <;> omega

theorem draw_filled_rect_mut_in_bounds_witness :
    ((3, 2) ∈ draw_filled_rect_mut_pixels 5 4 (Rect.mk 3 (-1) 10 10)) ∧
      (3 < 5 ∧ 2 < 4) :=
  ⟨by decide,
    draw_filled_rect_mut_in_bounds 5 4 (Rect.mk 3 (-1) 10 10) (3, 2)
      (by decide)⟩

/-! ## Polygon fill entry guards: `draw_polygon_with_mut` /
`draw_polygon_mut`
(src/swiping_img/imageproc/drawing/draw_mut.rs:344-426, 471-475)

Source entry dispatch:
```
if poly.is_empty() {
    return;
}
if poly[0] == poly[poly.len() - 1] {
    panic!("First point {:?} == last point {:?}", ...);
}
```
`draw_polygon_mut` forwards to `draw_polygon_with_mut` with the
line-segment plotter; only this entry dispatch decides how malformed
input is treated, so the scan-line fill that follows is represented by
the `filled` outcome. -/

/-- The `Point<i32>` type (src/swiping_img/imageproc/point.rs),
instantiated at `i32`. -/
structure Point where
  x : ℤ
  y : ℤ
  deriving DecidableEq, Repr

/-- How `draw_polygon_with_mut` leaves its caller: an early silent
`return` on empty input, a `panic!` on a closed ring, or control reaching
the scan-line fill. -/
inductive PolyOutcome where
  | returnedEarly
  | panicked
  | filled
  deriving DecidableEq, Repr

/-- Embedding of the entry dispatch of `draw_polygon_with_mut` (and of
`draw_polygon_mut`, which forwards to it unchanged). -/
def draw_polygon_with_mut_entry (poly : List Point) : PolyOutcome :=
  match poly with
  | [] => .returnedEarly
  | p :: ps =>
    if p = (p :: ps).getLast (List.cons_ne_nil p ps) then .panicked
    else .filled

/-- C6 counterexample: on an empty vertex list `draw_polygon_mut` returns
silently, doing nothing - it does not fail with an explicit error or
precondition violation as the claim states. -/
theorem draw_polygon_mut_empty_counterexample :
    draw_polygon_with_mut_entry [] = PolyOutcome.returnedEarly ∧
    PolyOutcome.returnedEarly ≠ PolyOutcome.panicked := by
  decide

/-- C6 amended: `draw_polygon_mut` rejects an already-closed ring (first
vertex equal to last vertex) with a precondition-violation `panic!`, but
an empty vertex list is silently accepted and draws nothing. -/
theorem draw_polygon_mut_closed_ring_panics (poly : List Point)
    (hne : poly ≠ []) (hclosed : poly.head hne = poly.getLast hne) :
    draw_polygon_with_mut_entry poly = PolyOutcome.panicked := by
  cases poly with
  | nil => exact absurd rfl hne
  | cons p ps =>
    rw [List.head_cons] at hclosed
    simp only [draw_polygon_with_mut_entry]
    rw [if_pos hclosed]

theorem draw_polygon_mut_closed_ring_panics_witness :
    draw_polygon_with_mut_entry [⟨0, 0⟩, ⟨1, 1⟩, ⟨0, 0⟩] =
      PolyOutcome.panicked :=
  draw_polygon_mut_closed_ring_panics [⟨0, 0⟩, ⟨1, 1⟩, ⟨0, 0⟩]
    (by decide) (by decide)

/-! ## Auto-fit text layout: `text_size` and `draw_text_center_mut`
(src/imageproc/drawing/draw_text.rs:40-42, 79-132)

The font collaborator (`ab_glyph`) is external to the repository; per the
spec (§6) it exposes a line height and per-line measured widths at a
given pixel scale, and these metrics scale linearly with the pixel scale.
The model therefore carries the metrics at scale 1 (`unitHeight`,
`unitWidth`) and multiplies by the scale.  The source's `f32` arithmetic
and its intermediate `as u32` casts are idealised over `ℚ` (exact
arithmetic; the claim's "within one pixel of rounding" slack is what the
casts can cost, and the exact-arithmetic bounds below are the `≤` they
round from). -/

/-- Modelled from the spec: the external font collaborator's metrics at
pixel scale 1 - a measured single-line width per line and the line
height - scaled linearly by the pixel scale. -/
structure FontMetrics where
  unitHeight : ℚ
  unitWidth : String → ℚ

/-- `text_size(scale, font, line).0`: the measured width of one line at
the given scale. -/
def text_size_w (font : FontMetrics) (scale : ℚ) (line : String) : ℚ :=
  scale * font.unitWidth line

/-- `font.as_scaled(scale).height()`. -/
def font_height (font : FontMetrics) (scale : ℚ) : ℚ :=
  scale * font.unitHeight

/-- `let text_raw_height = row * font.as_scaled(scale).height()`
(draw_text.rs:91-92), with `row` the number of lines. -/
def text_raw_height (font : FontMetrics) (scale : ℚ)
    (lines : List String) : ℚ :=
  lines.length * font_height font scale

/-- `let text_raw_width = lines.iter().map(|l| text_size(scale, font,
l).0).max().unwrap_or(0)` (draw_text.rs:95-99): the maximum over the
per-line widths, `0` for no lines (widths are non-negative, so the fold
from `0` is that maximum). -/
def text_raw_width (font : FontMetrics) (scale : ℚ)
    (lines : List String) : ℚ :=
  (lines.map (text_size_w font scale)).foldr max 0

/-- The scale resolution of `draw_text_center_mut` (draw_text.rs:106-112):
if either raw dimension exceeds the target rect, scale down by
`min(rect_width / raw_width, rect_height / raw_height)`, else keep the
given scale. -/
def resolved_scale (font : FontMetrics) (scale : ℚ) (rectW rectH : ℚ)
    (lines : List String) : ℚ :=
  if rectW < text_raw_width font scale lines ∨
      rectH < text_raw_height font scale lines then
    scale * min (rectW / text_raw_width font scale lines)
      (rectH / text_raw_height font scale lines)
  else scale

theorem foldr_max_nonneg (l : List ℚ) : 0 ≤ l.foldr max 0 := by
  induction l with
  | nil => exact le_refl 0
  | cons a l ih => exact le_trans ih (le_max_right a _)

theorem le_foldr_max (l : List ℚ) (x : ℚ) (hx : x ∈ l) :
    x ≤ l.foldr max 0 := by
  induction l with
  | nil => cases hx
  | cons a l ih =>
    rcases List.mem_cons.mp hx with rfl | hx
    · exact le_max_left x _
    · exact le_trans (ih hx) (le_max_right a _)

/-- C7: the scale resolved by `draw_text_center_mut` never exceeds the
given maximum scale; when either raw dimension measured at the maximum
scale exceeds the target rect, the resolved scale equals
`max_scale * min(rect.width/raw_width, rect.height/raw_height)`; and at
the resolved scale every line's measured width is at most the rect's
width and the line height is at most the rect's height. -/
theorem draw_text_center_mut_scale_fits (font : FontMetrics)
    (maxScale rectW rectH : ℚ) (lines : List String)
    (hM : 0 < maxScale) (hW : 0 ≤ rectW) (hH : 0 < rectH)
    (hfh : 0 < font.unitHeight) (huw : ∀ l, 0 ≤ font.unitWidth l)
    (hne : lines ≠ []) :
    resolved_scale font maxScale rectW rectH lines ≤ maxScale ∧
    (rectW < text_raw_width font maxScale lines ∨
        rectH < text_raw_height font maxScale lines →
      resolved_scale font maxScale rectW rectH lines =
        maxScale * min (rectW / text_raw_width font maxScale lines)
          (rectH / text_raw_height font maxScale lines)) ∧
    (∀ l ∈ lines,
      text_size_w font (resolved_scale font maxScale rectW rectH lines) l
        ≤ rectW) ∧
    font_height font (resolved_scale font maxScale rectW rectH lines)
      ≤ rectH := by
  have hn : 1 ≤ (lines.length : ℚ) := by
    have := List.length_pos.mpr hne
    exact_mod_cast this
  have hA : 0 < maxScale * font.unitHeight := mul_pos hM hfh
  have hrawH : 0 < text_raw_height font maxScale lines := by
    unfold text_raw_height font_height
    exact mul_pos (by linarith) hA
  have hrawW : 0 ≤ text_raw_width font maxScale lines :=
    foldr_max_nonneg _
  have hmem : ∀ l ∈ lines,
      maxScale * font.unitWidth l ≤ text_raw_width font maxScale lines := by
    intro l hl
    exact le_foldr_max _ _ (List.mem_map_of_mem (text_size_w font maxScale) hl)
  by_cases hbr : rectW < text_raw_width font maxScale lines ∨
      rectH < text_raw_height font maxScale lines
  · have hs : resolved_scale font maxScale rectW rectH lines =
        maxScale * min (rectW / text_raw_width font maxScale lines)
          (rectH / text_raw_height font maxScale lines) := by
      unfold resolved_scale
      rw [if_pos hbr]
    have hm0 : 0 ≤ min (rectW / text_raw_width font maxScale lines)
        (rectH / text_raw_height font maxScale lines) := by
      rcases lt_or_eq_of_le hrawW with hpos | hzero
      · exact le_min (div_nonneg hW hrawW) (div_nonneg hH.le hrawH.le)
      · refine le_min ?_ (div_nonneg hH.le hrawH.le)
        rw [← hzero, div_zero]
    have hm1 : min (rectW / text_raw_width font maxScale lines)
        (rectH / text_raw_height font maxScale lines) ≤ 1 := by
      rcases hbr with hbw | hbh
      · have hWpos : 0 < text_raw_width font maxScale lines := by linarith
        exact le_trans (min_le_left _ _) ((div_lt_one hWpos).mpr hbw).le
      · exact le_trans (min_le_right _ _) ((div_lt_one hrawH).mpr hbh).le
    refine ⟨?_, fun _ => hs, ?_, ?_⟩
    · rw [hs]
      have h1 := mul_le_mul_of_nonneg_left hm1 hM.le
      rw [mul_one] at h1
      exact h1
    · intro l hl
      rw [hs]
      unfold text_size_w
      rcases lt_or_eq_of_le hrawW with hpos | hzero
      · have h1 : maxScale * min (rectW / text_raw_width font maxScale lines)
            (rectH / text_raw_height font maxScale lines) *
            font.unitWidth l ≤
            maxScale * (rectW / text_raw_width font maxScale lines) *
            font.unitWidth l := by
          refine mul_le_mul_of_nonneg_right ?_ (huw l)
          exact mul_le_mul_of_nonneg_left (min_le_left _ _) hM.le
        have h2 : maxScale * (rectW / text_raw_width font maxScale lines) *
            font.unitWidth l =
            (rectW / text_raw_width font maxScale lines) *
              (maxScale * font.unitWidth l) := by ring
        have h3 : (rectW / text_raw_width font maxScale lines) *
            (maxScale * font.unitWidth l) ≤
            (rectW / text_raw_width font maxScale lines) *
              text_raw_width font maxScale lines :=
          mul_le_mul_of_nonneg_left (hmem l hl) (div_nonneg hW hrawW)
        have h4 : (rectW / text_raw_width font maxScale lines) *
            text_raw_width font maxScale lines = rectW :=
          div_mul_cancel₀ rectW (ne_of_gt hpos)
        rw [h2] at h1
        rw [h4] at h3
        exact le_trans h1 h3
      · have hz : maxScale * font.unitWidth l = 0 := by
          have h1 := hmem l hl
          have h2 : 0 ≤ maxScale * font.unitWidth l :=
            mul_nonneg hM.le (huw l)
          rw [← hzero] at h1
          linarith
        have hu0 : font.unitWidth l = 0 := by
          rcases mul_eq_zero.mp hz with h | h
          · exact absurd h (ne_of_gt hM)
          · exact h
        rw [hu0, mul_zero]
        exact hW
    · rw [hs]
      unfold font_height
      have hmle : min (rectW / text_raw_width font maxScale lines)
          (rectH / text_raw_height font maxScale lines) ≤
          rectH / text_raw_height font maxScale lines := min_le_right _ _
      have e : maxScale * min (rectW / text_raw_width font maxScale lines)
          (rectH / text_raw_height font maxScale lines) * font.unitHeight =
          (maxScale * font.unitHeight) *
            min (rectW / text_raw_width font maxScale lines)
              (rectH / text_raw_height font maxScale lines) := by ring
      have k1 : (maxScale * font.unitHeight) *
          min (rectW / text_raw_width font maxScale lines)
            (rectH / text_raw_height font maxScale lines) ≤
          (maxScale * font.unitHeight) *
            (rectH / text_raw_height font maxScale lines) :=
        mul_le_mul_of_nonneg_left hmle hA.le
      rw [e]
      refine le_trans k1 ?_
      have hn0 : (lines.length : ℚ) ≠ 0 := by linarith
      have hA0 : maxScale * font.unitHeight ≠ 0 := ne_of_gt hA
      have heq : (maxScale * font.unitHeight) *
          (rectH / text_raw_height font maxScale lines) =
          rectH / (lines.length : ℚ) := by
        unfold text_raw_height font_height
        field_simp
        ring
      rw [heq]
      exact div_le_self hH.le hn
  · have hs : resolved_scale font maxScale rectW rectH lines = maxScale := by
      unfold resolved_scale
      rw [if_neg hbr]
    push_neg at hbr
    refine ⟨le_of_eq hs, fun h => absurd h (by push_neg; exact hbr), ?_, ?_⟩
    · intro l hl
      rw [hs]
      unfold text_size_w
      exact le_trans (hmem l hl) hbr.1
    · rw [hs]
      unfold font_height
      have : maxScale * font.unitHeight ≤
          (lines.length : ℚ) * (maxScale * font.unitHeight) :=
        le_mul_of_one_le_left hA.le hn
      refine le_trans this ?_
      have h2 := hbr.2
      unfold text_raw_height font_height at h2
      exact h2

theorem draw_text_center_mut_scale_fits_witness :
    (0 : ℚ) < 2 ∧ (0 : ℚ) ≤ 4 ∧ (0 : ℚ) < 1 ∧
      font_height ⟨1, fun _ => 1⟩
        (resolved_scale ⟨1, fun _ => 1⟩ 2 4 1 ["ab"]) ≤ 1 :=
  ⟨by norm_num, by norm_num, by norm_num,
    (draw_text_center_mut_scale_fits ⟨1, fun _ => 1⟩ 2 4 1 ["ab"]
      (by norm_num) (by norm_num) (by norm_num) (by norm_num)
      (fun _ => by norm_num) (by simp)).2.2.2⟩

/-! ## Cleanup after concatenation: `BigImg::combain`
(src/swiping_img/mod.rs:338-382)

`combain` writes the manifest `list.txt`, runs the ffmpeg concat job (the
`?` on both `std::fs::write(...)` and `self.ffmpeg(...)` propagates their
failures immediately), and only then removes the manifest and, for every
entry of `results`, the clip file and its `.png` sibling - each removal
through `let _ = std::fs::remove_file(...)`, whose result is discarded.
The two effectful steps that can fail are modelled by the booleans
`writeOk` and `concatOk`; `removeOk` models which removals would succeed
and is ignored exactly as the source ignores removal results.  The value
returned on success is the ordered list of paths handed to
`remove_file`. -/

/-- Embedding of `PathBuf::set_extension("png")` for the plain relative
file names `combain` handles: replace the text after the last `.`, or
append `.png` when there is no extension. -/
def setExtensionPng (s : String) : String :=
  let parts := s.splitOn "."
  if parts.length ≤ 1 then s ++ ".png"
  else String.intercalate "." parts.dropLast ++ ".png"

/-- Embedding of `BigImg::combain`: `Except.error` when writing the
manifest or the concat invocation fails (in source order), otherwise
`Except.ok` with the paths passed to `std::fs::remove_file` in call order
(`list.txt`, then for each result the clip and its `.png`). -/
def combain (writeOk concatOk : Bool) (removeOk : String → Bool)
    (results : List String) : Except String (List String) :=
  if writeOk = false then .error "io error"
  else if concatOk = false then .error "FFmpeg command failed"
  else .ok ("list.txt" :: results.flatMap fun r => [r, setExtensionPng r])

/-- C8 counterexample: when the concatenation fails, `combain` returns
the error immediately and attempts no deletion at all - it does not
delete the manifest, clips and stills "regardless of whether the
concatenation succeeded or failed". -/
theorem combain_no_cleanup_on_failure_counterexample :
    combain true false (fun _ => true) ["cover.mp4", "00.mp4"] =
      Except.error "FFmpeg command failed" ∧
    (combain true false (fun _ => true) ["cover.mp4", "00.mp4"]).isOk
      = false :=
  ⟨rfl, rfl⟩

/-- C8 amended: when the manifest write and the concatenation succeed,
`combain` attempts to delete the manifest `list.txt`, every per-frame
clip and its intermediate `.png` still, and returns `Ok`; every deletion
result is discarded, so the outcome is independent of which deletions
would fail and a failed deletion never turns the successful run into a
failed one.  When the concatenation fails, `combain` returns the error
without attempting any deletion. -/
theorem combain_cleanup_best_effort :
    ∀ (removeOk removeOk' : String → Bool) (results : List String),
      (combain true true removeOk results).isOk = true ∧
      combain true true removeOk results =
        combain true true removeOk' results ∧
      ∃ deleted, combain true true removeOk results = .ok deleted ∧
        "list.txt" ∈ deleted ∧
        ∀ r ∈ results, r ∈ deleted ∧ setExtensionPng r ∈ deleted := by
  intro rOk rOk' results
  refine ⟨rfl, rfl,
    "list.txt" :: results.flatMap fun r => [r, setExtensionPng r],
    rfl, List.mem_cons_self .., ?_⟩
  intro r hr
  constructor
  · exact List.mem_cons_of_mem _
      (List.mem_flatMap.mpr ⟨r, hr, by simp⟩)
  · exact List.mem_cons_of_mem _
      (List.mem_flatMap.mpr ⟨r, hr, by simp⟩)

theorem combain_cleanup_best_effort_witness :
    (combain true true (fun _ => false) ["cover.mp4", "00.mp4"]).isOk
      = true :=
  (combain_cleanup_best_effort (fun _ => false) (fun _ => true)
    ["cover.mp4", "00.mp4"]).1

/-! ## Frame composition guards: `BigImg::combain_chunk`
(src/swiping_img/mod.rs:208-224) and `Chunk::draw_data`
(src/swiping_img/chunk.rs:153-232)

`combain_chunk` rejects an empty frame with `Err("Empty chunk")` before
any drawing.  `Chunk::draw_data` computes the per-caption-line heights

```
let (h_up, h_down) = (
    text_up_h / u32::try_from(len_up)?,
    (text_down_h - 30) / u32::try_from(len_down)?,
);
```

`u32::try_from` on a `usize` length fails only above `u32::MAX`, so an
empty caption list reaches the `u32` division with divisor `0`, which
panics in Rust - there is no guard.  The model makes the panic
explicit. -/

/-- The `Chunk` fields the height computation reads: the two caption
lists (src/swiping_img/chunk.rs:92-96). -/
structure ChunkData where
  text_up : List String
  text_down : List String
  deriving DecidableEq, Repr

/-- Outcome of the height computation of `Chunk::draw_data`
(chunk.rs:190-194): a propagated `TryFromIntError`, a Rust arithmetic
panic, or the two heights. -/
inductive HeightsOutcome where
  | err (msg : String)
  | panicked (msg : String)
  | ok (hUp hDown : ℕ)
  deriving DecidableEq, Repr

/-- Embedding of chunk.rs:190-194 in Rust evaluation order: convert
`len_up` (error above `u32::MAX`), divide `text_up_h` (panic on zero),
compute `text_down_h - 30` (`u32` subtraction, panic on underflow),
convert `len_down`, divide. -/
def draw_data_heights (textUpH textDownH : ℕ) (c : ChunkData) :
    HeightsOutcome :=
  if 2 ^ 32 ≤ c.text_up.length then .err "TryFromIntError"
  else if c.text_up.length = 0 then .panicked "attempt to divide by zero"
  else if textDownH < 30 then .panicked "attempt to subtract with overflow"
  else if 2 ^ 32 ≤ c.text_down.length then .err "TryFromIntError"
  else if c.text_down.length = 0 then .panicked "attempt to divide by zero"
  else .ok (textUpH / c.text_up.length)
    ((textDownH - 30) / c.text_down.length)

/-- Embedding of the entry guard and loop of `BigImg::combain_chunk`: an
empty frame is rejected with `Err("Empty chunk")` before any drawing;
otherwise the frame length is converted to `u32` and each chunk is drawn
(the image decoding/drawing outcome abstracted by `drawOk`). -/
def combain_chunk (drawOk : ChunkData → Bool) (chunk : List ChunkData) :
    Except String Unit :=
  if chunk.isEmpty then .error "Empty chunk"
  else if 2 ^ 32 ≤ chunk.length then .error "TryFromIntError"
  else if chunk.all drawOk then .ok () else .error "ImageError"

/-- C9: `combain_chunk` does return an explicit error on an empty frame,
but `Chunk::draw_data` does not guard the caption-count division: with
the default region heights (`text_up_h = 214`, `text_down_h = 346`), a
tile with an empty upper caption list - and likewise one with an empty
lower caption list - makes the height computation divide by zero, a Rust
panic rather than an error. -/
theorem combain_chunk_empty_and_caption_division :
    (∀ drawOk, combain_chunk drawOk [] = .error "Empty chunk") ∧
    draw_data_heights 214 346 ⟨[], ["x"]⟩ =
      .panicked "attempt to divide by zero" ∧
    draw_data_heights 214 346 ⟨["x"], []⟩ =
      .panicked "attempt to divide by zero" ∧
    draw_data_heights 214 346 ⟨["a"], ["b", "c"]⟩ = .ok 214 158 :=
  ⟨fun _ => rfl, rfl, rfl, rfl⟩

end ToVideo
